import Mathlib

/-!
A shallow embedding of the retrieval / graph-traversal core of the
`hyphora_local` repository (files `search.py`, `graph_walk.py`, `mmr.py`,
`server.py`), together with theorems settling the specification claims.

External effects (the SQLite store, the `sqlite-vec` KNN index, the FTS5
index, the `ollama` embedding service) are modelled as function-valued
parameters: a document lookup `docs : ℕ → Option (String × String)`, a
neighbor list `neighbors : ℕ → List ℕ`, a per-document embedding lookup
`emb : ℕ → Option E`, the two ranked candidate lists consumed by the
fusion SQL, and an abstract similarity function `sim : E → E → ℚ` standing
for `cosine_similarity` on stored vectors (the claims proved here do not
depend on the numeric definition of cosine, only on how the walks use it).
Machine floats are modelled as exact rationals.
-/

namespace Hyphora

/-- Characters removed (replaced by a space) by the `re.sub` cleaning step of
`search.py:sanitize_fts5_query`. -/
def ftsSpecialChars : List Char :=
  ['"', '^', '*', '(', ')', ':', '\x7b', '\x7d', '[', ']', '-', '?']

/-- Replace every FTS5 special character by a space
(`re.sub(r'["\^\*\(\)\:\{\}\[\]\-\?]', " ", text)`). -/
def cleanSpecial (s : List Char) : List Char :=
  s.map fun c => if ftsSpecialChars.contains c then ' ' else c

/-- ASCII word character in the sense of the regex `\b` boundary (`\w`). -/
def isWordChar (c : Char) : Bool :=
  c.isAlpha || c.isDigit || c = '_'

/-- Accumulator-based splitting of a character list into maximal runs of
word characters. -/
def wordRunsAux (acc : List Char) : List Char → List (List Char)
  | [] => if acc.isEmpty then [] else [acc.reverse]
  | c :: cs =>
    if isWordChar c then wordRunsAux (c :: acc) cs
    else if acc.isEmpty then wordRunsAux [] cs
    else acc.reverse :: wordRunsAux [] cs

/-- Maximal runs of word characters of a character list. -/
def wordRuns (s : List Char) : List (List Char) :=
  wordRunsAux [] s

/-- Tokens matched by `re.findall(r"\b[a-zA-Z]{3,}\b", s)`: the maximal
word-character runs that consist entirely of ASCII letters and have length
at least 3 (a run containing a digit or underscore produces no match because
no word boundary occurs inside it). -/
def alphaTokens (s : List Char) : List String :=
  ((wordRuns s).filter fun w => w.all Char.isAlpha && decide (3 ≤ w.length)).map
    fun w => String.mk w

namespace Search

/-- Token list extracted by `search.py:sanitize_fts5_query`: clean special
characters, lowercase, then extract alphabetic tokens of length ≥ 3. -/
def sanitizeTokens (text : String) : List String :=
  alphaTokens ((cleanSpecial text.data).map Char.toLower)

/-- Embedding of `search.py:sanitize_fts5_query`. Each surviving token is
quoted; if no token survives the fixed placeholder `"document"` (with quotes)
is returned. Note: this version performs no stop-word removal, no
de-duplication and no cap on the token count. -/
def sanitize_fts5_query (text : String) : String :=
  let quoted_terms := (sanitizeTokens text).map fun w => "\"" ++ w ++ "\""
  if quoted_terms.isEmpty then "\"document\""
  else String.intercalate " " quoted_terms

end Search

namespace GraphWalk

/-- Stop-word set of `graph_walk.py:sanitize_fts5_query`. -/
def stop_words : List String :=
  ["the", "and", "for", "are", "but", "not", "you", "all", "can", "had",
   "her", "was", "one", "our", "out", "day", "get", "has", "him", "his",
   "how", "man", "new", "now", "old", "see", "two", "way", "who", "boy",
   "did", "its", "let", "put", "say", "she", "too", "use"]

/-- Embedding of the filtering loop of `graph_walk.py:sanitize_fts5_query`:
drop stop words, de-duplicate (`seen`), require length ≥ 3, and stop once
`max_terms` tokens have been collected. -/
def filterMeaningful (maxTerms : ℕ) : List String → List String → List String → List String
  | [], _, acc => acc
  | w :: ws, seen, acc =>
    if w ∉ stop_words ∧ w ∉ seen ∧ 3 ≤ w.length then
      let acc' := acc ++ [w]
      if maxTerms ≤ acc'.length then acc'
      else filterMeaningful maxTerms ws (seen ++ [w]) acc'
    else filterMeaningful maxTerms ws seen acc

/-- Embedding of `graph_walk.py:sanitize_fts5_query` (the version used to
sanitize walk queries before they are handed to the fusion search):
lowercase, extract alphabetic tokens of length ≥ 3, drop stop words,
de-duplicate preserving first-seen order, cap at `max_terms`, and fall back
to the placeholder `document` when nothing survives. -/
def sanitize_fts5_query (text : String) (max_terms : ℕ) : String :=
  let words := alphaTokens (text.data.map Char.toLower)
  let meaningful := filterMeaningful max_terms words [] []
  if meaningful.isEmpty then "document"
  else String.intercalate " " meaningful

end GraphWalk

/-- Embedding of `search.py:SearchResult`. -/
structure SearchResult where
  id : ℕ
  title : String
  content : String
  vec_rank : Option ℕ
  fts_rank : Option ℕ
  combined_rank : ℚ
  vec_distance : Option ℚ
  fts_score : Option ℚ
deriving Repr, DecidableEq

namespace Search

/-- Weighted reciprocal-rank term `COALESCE(1.0 / (rrf_k + rank), 0.0)` of
the RRF SQL: `0` when the rank is NULL (document absent from that method).
In SQLite `1.0/0` is NULL and is also coalesced to `0`, which agrees with
`1 / 0 = 0` on ℚ. -/
def rrfTerm (rrf_k : ℚ) : Option ℕ → ℚ
  | none => 0
  | some r => 1 / (rrf_k + r)

/-- Combined (fused) RRF score of the SQL `final` CTE:
`COALESCE(1.0/(rrf_k + fts_rank), 0) * weight_fts +
 COALESCE(1.0/(rrf_k + vec_rank), 0) * weight_vec`. -/
def combinedScore (rrf_k weight_fts weight_vec : ℚ) (ftsRank vecRank : Option ℕ) : ℚ :=
  rrfTerm rrf_k ftsRank * weight_fts + rrfTerm rrf_k vecRank * weight_vec

/-- Assign dense 1-based ranks (`ROW_NUMBER()`) to the first `k` entries of a
method's candidate list, given in the method's own relevance order.
Entries are `(document id, raw score-or-distance)`. -/
def rankRows (l : List (ℕ × ℚ)) (k : ℕ) : List (ℕ × ℕ × ℚ) :=
  (l.take k).enum.map fun p => (p.2.1, p.1 + 1, p.2.2)

/-- Look up a document's `(rank, raw score)` in a ranked method list. -/
def lookupRank (rows : List (ℕ × ℕ × ℚ)) (id : ℕ) : Option (ℕ × ℚ) :=
  (rows.find? fun r => decide (r.1 = id)).map fun r => r.2

/-- One candidate row of the `FULL OUTER JOIN` of the two method lists. -/
structure CandidateRow where
  id : ℕ
  fts_rank : Option ℕ
  fts_score : Option ℚ
  vec_rank : Option ℕ
  vec_distance : Option ℚ
deriving Repr, DecidableEq

/-- Rows of `fts_matches FULL OUTER JOIN vec_matches`, in join enumeration
order: every FTS row (carrying its vector rank when the id also appears in
the vector list), then the vector-only rows. -/
def fusedCandidates (fts vec : List (ℕ × ℚ)) (k : ℕ) : List CandidateRow :=
  let ftsR := rankRows fts k
  let vecR := rankRows vec k
  (ftsR.map fun r =>
    match lookupRank vecR r.1 with
    | some v => ⟨r.1, some r.2.1, some r.2.2, some v.1, some v.2⟩
    | none => ⟨r.1, some r.2.1, some r.2.2, none, none⟩)
  ++ ((vecR.filter fun v => (lookupRank ftsR v.1).isNone).map fun v =>
    ⟨v.1, none, none, some v.2.1, some v.2.2⟩)

end Search

/-- Insert into a list kept in descending `f`-order, after any earlier
element with an equal key (so the overall sort is stable, as a SQL sorter
over the join enumeration order and Python's stable `sort` are). -/
def insertDescBy {α : Type} (f : α → ℚ) (a : α) : List α → List α
  | [] => [a]
  | b :: l => if f b ≤ f a then a :: b :: l else b :: insertDescBy f a l

/-- Stable descending sort by a rational key (models `ORDER BY ... DESC`,
which orders by the key only; ties keep enumeration order, and Python's
`list.sort(key=..., reverse=True)`, which is stable). -/
def sortDescBy {α : Type} (f : α → ℚ) (l : List α) : List α :=
  l.foldr (insertDescBy f) []

namespace Search

/-- Result rows of the RRF SQL of `search.py:search_documents`: join the two
ranked method lists, keep ids present in the `vault` table (`docs`), compute
the fused score, sort by fused score descending, and apply `LIMIT`. -/
def searchRows (docs : ℕ → Option (String × String)) (fts vec : List (ℕ × ℚ))
    (k : ℕ) (rrf_k weight_fts weight_vec : ℚ) (limit : ℕ) : List SearchResult :=
  let rows := (fusedCandidates fts vec k).filterMap fun c =>
    match docs c.id with
    | some (t, ct) =>
      some { id := c.id, title := t, content := ct,
             vec_rank := c.vec_rank, fts_rank := c.fts_rank,
             combined_rank := combinedScore rrf_k weight_fts weight_vec c.fts_rank c.vec_rank,
             vec_distance := c.vec_distance, fts_score := c.fts_score }
    | none => none
  (sortDescBy (fun r => r.combined_rank) rows).take limit

/-- Embedding of `search.py:search_documents`. The query-embedding call is
modelled by its outcome `embed`; a service error, or an empty embedding
vector, raises (`Except.error`), exactly as the `try/except` re-raises a
`RuntimeError`. On success the RRF SQL result is returned (possibly empty).
The FTS and vector candidate lists produced by the store for this query are
the parameters `fts` and `vec`. -/
def search_documents (docs : ℕ → Option (String × String))
    (embed : Except String (List ℚ)) (fts vec : List (ℕ × ℚ))
    (k : ℕ) (rrf_k weight_fts weight_vec : ℚ) (limit : ℕ) :
    Except String (List SearchResult) :=
  match embed with
  | .error e => .error ("Failed to generate embedding for query: " ++ e)
  | .ok v =>
    if v.isEmpty then
      .error "Failed to generate embedding for query: Failed to generate query embedding"
    else
      .ok (searchRows docs fts vec k rrf_k weight_fts weight_vec limit)

end Search

/-- Python `max(iterable, key=f)` and the MMR selection loop
(`if score > best_score`): both return the FIRST element attaining the
maximal key, in iteration order. -/
def pythonMaxBy {α : Type} (f : α → ℚ) : List α → Option α
  | [] => none
  | a :: l => some (l.foldl (fun best x => if f best < f x then x else best) a)

/-- Python dict insertion keyed by `key`: overwrite in place when the key is
already present (keeping its position), otherwise append. -/
def dictInsertBy {α : Type} (key : α → ℕ) (l : List α) (a : α) : List α :=
  if l.any fun x => key x == key a then
    l.map fun x => if key x == key a then a else x
  else l ++ [a]

/-- Python slice `l[-n:]`: for `n = 0` the whole list, otherwise the last
`min n (length l)` elements. -/
def pyTakeLast {α : Type} (n : ℕ) (l : List α) : List α :=
  if n = 0 then l else l.drop (l.length - n)

namespace GraphWalk

/-- Embedding of `graph_walk.py:QueryScore` (the numeric `:.3f` rendering
inside `query_text` strings is elided; no claim depends on it). -/
structure QueryScore where
  query_type : String
  query_text : String
  rrf_score : ℚ
  vec_rank : Option ℕ
  fts_rank : Option ℕ
deriving Repr, DecidableEq

/-- Embedding of `graph_walk.py:WalkStep`. -/
structure WalkStep where
  id : ℕ
  title : String
  content : String
  combined_score : ℚ
  distance_from_seed : ℕ
  query_scores : List QueryScore
deriving Repr, DecidableEq

/-- Query-type tag: `f"query_{i}" if i > 0 else "original"`. -/
def queryType (i : ℕ) : String :=
  if 0 < i then "query_" ++ toString i else "original"

/-- Query-text truncation: `q[:50] + "..." if len(q) > 50 else q`. -/
def truncQueryText (s : String) : String :=
  if 50 < s.length then s.take 50 ++ "..." else s

/-- One neighbor's entry in `score_neighbors_multi_query`'s dict:
`(combined_score, query_details)` keyed by the neighbor id. -/
structure ScoredNeighbor where
  id : ℕ
  score : ℚ
  details : List QueryScore
deriving Repr, DecidableEq

/-- Score one neighbor against every query, as the inner loop of
`graph_walk.py:score_neighbors_multi_query` does: sanitize the query with
the graph-walk sanitizer (`max_terms = 10`), run the fusion search (the
oracle `search` stands for `search_documents` with the walk's
`rrf_params` and `limit=1000`), linearly scan for the neighbor's row, and
contribute `0` when it is absent. The combined score is the weighted sum
`sum(score * weight for score, weight in zip(individual_scores, query_weights))`. -/
def scoreOneNeighbor (search : String → List SearchResult) (n : ℕ)
    (queries : List String) (query_weights : List ℚ) : ScoredNeighbor :=
  let scored := queries.enum.map fun p =>
    let sq := sanitize_fts5_query p.2 10
    match (search sq).find? (fun r => r.id == n) with
    | some r =>
      (r.combined_rank,
       QueryScore.mk (queryType p.1) (truncQueryText sq) r.combined_rank r.vec_rank r.fts_rank)
    | none =>
      (0, QueryScore.mk (queryType p.1) (truncQueryText sq) 0 none none)
  ScoredNeighbor.mk n
    (((scored.map Prod.fst).zip query_weights).map (fun p => p.1 * p.2)).sum
    (scored.map Prod.snd)

/-- Embedding of `graph_walk.py:score_neighbors_multi_query`: a dict keyed
by neighbor id, built in `neighbor_ids` order. -/
def score_neighbors_multi_query (search : String → List SearchResult)
    (neighbor_ids : List ℕ) (queries : List String) (query_weights : List ℚ) :
    List ScoredNeighbor :=
  neighbor_ids.foldl
    (fun acc n => dictInsertBy (fun s => s.id) acc (scoreOneNeighbor search n queries query_weights))
    []

/-- One iteration state of the `for hop in range(max_hops)` loop of
`recursive_graph_walk`, with `fuel` the number of iterations left
(`fuel = max_hops - hop`). Termination cases (`break`) return the empty
suffix: no unvisited neighbor, empty score dict, best score below the
threshold, or the chosen row missing from the `vault` table. -/
def walkLoop (neighbors : ℕ → List ℕ) (search : String → List SearchResult)
    (docs : ℕ → Option (String × String)) (score_threshold : ℚ)
    (query_weights : List ℚ) (max_hops : ℕ) :
    ℕ → ℕ → List ℕ → List String → List WalkStep
  | 0, _, _, _ => []
  | fuel + 1, cur, visited, history =>
    let unvisited := (neighbors cur).filter fun n => !visited.contains n
    if unvisited.isEmpty then []
    else
      let queries := pyTakeLast query_weights.length history
      let weights := pyTakeLast queries.length query_weights
      let scored := score_neighbors_multi_query search unvisited queries weights
      match pythonMaxBy (fun s => s.score) scored with
      | none => []
      | some best =>
        if best.score < score_threshold then []
        else
          match docs best.id with
          | none => []
          | some (t, ct) =>
            let hop := max_hops - (fuel + 1)
            let step := WalkStep.mk best.id t ct best.score (hop + 1) best.details
            step :: walkLoop neighbors search docs score_threshold query_weights max_hops
              fuel best.id (visited ++ [best.id]) (history ++ [ct])

/-- Embedding of `graph_walk.py:recursive_graph_walk`. The store and the
fusion search are the oracles `neighbors`, `search` and `docs`;
`query_weights = none` models the Python default `None`
(replaced by `[0.7, 0.3]`). The walk starts at the first seed, marks it
visited, and seeds the content history with the original prompt and the
seed's content. -/
def recursive_graph_walk (neighbors : ℕ → List ℕ)
    (search : String → List SearchResult) (docs : ℕ → Option (String × String))
    (seed_results : List SearchResult) (original_prompt : String)
    (max_hops : ℕ) (score_threshold : ℚ) (query_weights : Option (List ℚ)) :
    List WalkStep :=
  match seed_results with
  | [] => []
  | seed :: _ =>
    let qw := query_weights.getD [7/10, 3/10]
    walkLoop neighbors search docs score_threshold qw max_hops
      max_hops seed.id [seed.id] [original_prompt, seed.content]

end GraphWalk

namespace MMR

open GraphWalk (QueryScore WalkStep)

/-- Embedding of `mmr.py:MMRCandidate`; the embedding vector type `E` is
abstract (the store holds 768-float vectors). -/
structure MMRCandidate (E : Type) where
  id : ℕ
  title : String
  content : String
  embedding : E
  similarity : ℚ
  max_redundancy : ℚ
  depth : ℕ
deriving Repr, DecidableEq

/-- Embedding of `MMRCandidate.mmr_score`:
`lambda_mult * similarity - (1 - lambda_mult) * max_redundancy`. -/
def MMRCandidate.mmr_score {E : Type} (c : MMRCandidate E) (lambda_mult : ℚ) : ℚ :=
  lambda_mult * c.similarity - (1 - lambda_mult) * c.max_redundancy

/-- Redundancy update applied to the remaining frontier after a selection:
`candidate.max_redundancy = max(candidate.max_redundancy,
cosine_similarity(candidate.embedding, best_candidate.embedding))`. -/
def updateRedundancies {E : Type} (sim : E → E → ℚ) (bestEmb : E)
    (cands : List (MMRCandidate E)) : List (MMRCandidate E) :=
  cands.map fun c =>
    { c with max_redundancy := max c.max_redundancy (sim c.embedding bestEmb) }

/-- Data gathered per scorable neighbor during frontier expansion. -/
structure NeighborCand (E : Type) where
  id : ℕ
  title : String
  content : String
  embedding : E
  similarity : ℚ
deriving Repr, DecidableEq

/-- The three `QueryScore` diagnostics emitted per MMR selection
(relevance, diversity `1 - max_redundancy`, combined; numeric rendering in
the text elided). -/
def mmrDetails {E : Type} (best : MMRCandidate E) (best_score : ℚ) : List QueryScore :=
  [QueryScore.mk "mmr_relevance" "Query similarity" best.similarity none none,
   QueryScore.mk "mmr_diversity" "Max redundancy" (1 - best.max_redundancy) none none,
   QueryScore.mk "mmr_combined" "MMR score" best_score none none]

/-- Frontier expansion of `mmr_graph_walk`: unvisited undirected neighbors
of the newly selected node, skipping nodes without a stored embedding or
document row, stably sorted by similarity descending, truncated to
`adjacent_k`; each gets its initial `max_redundancy` against all selected
embeddings, is inserted into the candidate dict at `depth + 1`, and is
marked visited. -/
def expandFrontier {E : Type} (neighbors : ℕ → List ℕ) (emb : ℕ → Option E)
    (docs : ℕ → Option (String × String)) (sim : E → E → ℚ) (q : E)
    (adjacent_k : ℕ) (selectedEmb : List E) (bestId bestDepth : ℕ)
    (cands : List (MMRCandidate E)) (visited : List ℕ) :
    List (MMRCandidate E) × List ℕ :=
  let unvisited := (neighbors bestId).filter fun n => !visited.contains n
  let ncands : List (NeighborCand E) := unvisited.filterMap fun n =>
    match emb n, docs n with
    | some e, some (t, ct) => some (NeighborCand.mk n t ct e (sim q e))
    | _, _ => none
  let sorted := sortDescBy (fun c => c.similarity) ncands
  (sorted.take adjacent_k).foldl
    (fun st c =>
      let max_red := selectedEmb.foldl (fun m se => max m (sim c.embedding se)) 0
      (dictInsertBy (fun x => x.id) st.1
        (MMRCandidate.mk c.id c.title c.content c.embedding c.similarity max_red (bestDepth + 1)),
       st.2 ++ [c.id]))
    (cands, visited)

/-- The `while len(selected) < select_k and candidates` loop of
`mmr_graph_walk`, with `fuel = select_k - len(selected)` (each iteration
selects exactly one node, so `fuel` decreases by one). Selection picks the
first candidate, in dict iteration order, attaining the maximal MMR score;
stops when the best score falls below `min_mmr_score`; removes the
selection from the dict; updates every survivor's redundancy; then expands
the frontier when `depth < max_depth`. -/
def mmrLoop {E : Type} (neighbors : ℕ → List ℕ) (emb : ℕ → Option E)
    (docs : ℕ → Option (String × String)) (sim : E → E → ℚ) (q : E)
    (lambda_mult : ℚ) (adjacent_k max_depth : ℕ) (min_mmr_score : ℚ) :
    ℕ → List (MMRCandidate E) → List ℕ → List E → List WalkStep
  | 0, _, _, _ => []
  | fuel + 1, cands, visited, selectedEmb =>
    match pythonMaxBy (fun c => c.mmr_score lambda_mult) cands with
    | none => []
    | some best =>
      let best_score := best.mmr_score lambda_mult
      if best_score < min_mmr_score then []
      else
        let survivors := cands.eraseP fun c => c.id == best.id
        let updated := updateRedundancies sim best.embedding survivors
        let selectedEmb' := selectedEmb ++ [best.embedding]
        let step := WalkStep.mk best.id best.title best.content best_score best.depth
          (mmrDetails best best_score)
        let st :=
          if best.depth < max_depth then
            expandFrontier neighbors emb docs sim q adjacent_k selectedEmb'
              best.id best.depth updated visited
          else (updated, visited)
        step :: mmrLoop neighbors emb docs sim q lambda_mult adjacent_k max_depth
          min_mmr_score fuel st.1 st.2 selectedEmb'

/-- Seed initialization of `mmr_graph_walk`: the first three seeds that have
a stored embedding become depth-0 candidates (redundancy 0) and are marked
visited, in seed order. -/
def initSeeds {E : Type} (emb : ℕ → Option E) (sim : E → E → ℚ) (q : E)
    (seeds : List SearchResult) : List (MMRCandidate E) × List ℕ :=
  (seeds.take 3).foldl
    (fun st s =>
      match emb s.id with
      | none => st
      | some e =>
        (dictInsertBy (fun x => x.id) st.1
          (MMRCandidate.mk s.id s.title s.content e (sim q e) 0 0),
         st.2 ++ [s.id]))
    ([], [])

/-- Embedding of `mmr.py:mmr_graph_walk`. The store is abstracted by
`neighbors`, `emb` and `docs`; `sim` stands for `cosine_similarity` (the
source's normalization of the query embedding is a no-op under cosine and
is absorbed into `sim`). -/
def mmr_graph_walk {E : Type} (neighbors : ℕ → List ℕ) (emb : ℕ → Option E)
    (docs : ℕ → Option (String × String)) (sim : E → E → ℚ)
    (seed_results : List SearchResult) (query_embedding : E)
    (lambda_mult : ℚ) (select_k adjacent_k max_depth : ℕ)
    (min_mmr_score : ℚ) : List WalkStep :=
  if seed_results.isEmpty then []
  else
    let st := initSeeds emb sim query_embedding seed_results
    mmrLoop neighbors emb docs sim query_embedding lambda_mult adjacent_k max_depth
      min_mmr_score select_k st.1 st.2 []

end MMR

namespace Server

/-- Parameter names accepted by `graph_walk.py:recursive_graph_walk`
(lines 175-183); the signature declares no `**kwargs`. -/
def recursive_graph_walk_params : List String :=
  ["config", "seed_results", "original_prompt", "max_hops", "score_threshold",
   "query_weights", "rrf_params"]

/-- Keyword-argument names passed by the server's `graph_walk` tool to
`recursive_graph_walk` at `server.py` lines 200-216 (the first three
arguments are positional). -/
def graph_walk_call_kwargs : List String :=
  ["max_hops", "score_threshold", "query_weights", "rrf_params",
   "use_mmr", "mmr_lambda", "mmr_adjacent_k"]

/-- Python call binding for a function without `**kwargs`: the call binds
(and the body runs) iff every keyword argument names a declared parameter;
otherwise the interpreter raises `TypeError` at the call site, before any
traversal. -/
def bindsWithoutTypeError (params kwargs : List String) : Bool :=
  kwargs.all params.contains

end Server

end Hyphora

namespace Hyphora

/-! ## Helper lemmas -/

lemma mem_insertDescBy {α : Type} (f : α → ℚ) (a x : α) :
    ∀ l : List α, x ∈ insertDescBy f a l ↔ x = a ∨ x ∈ l := by
  intro l
  induction l with
  | nil => simp [insertDescBy]
  | cons b t ih =>
    simp only [insertDescBy]
    split
    · simp
    · simp only [List.mem_cons, ih]
      tauto

lemma pairwise_insertDescBy {α : Type} (f : α → ℚ) (a : α) :
    ∀ l : List α, l.Pairwise (fun u v => f v ≤ f u) →
      (insertDescBy f a l).Pairwise (fun u v => f v ≤ f u) := by
  intro l
  induction l with
  | nil => simp [insertDescBy]
  | cons b t ih =>
    intro h
    rw [List.pairwise_cons] at h
    simp only [insertDescBy]
    split
    · next hba =>
      rw [List.pairwise_cons]
      constructor
      · intro x hx
        rcases List.mem_cons.mp hx with rfl | hx
        · exact hba
        · exact le_trans (h.1 x hx) hba
      · exact List.pairwise_cons.mpr h
    · next hba =>
      rw [List.pairwise_cons]
      constructor
      · intro x hx
        rcases (mem_insertDescBy f a x t).mp hx with rfl | hx
        · exact le_of_not_le hba
        · exact h.1 x hx
      · exact ih h.2

lemma pairwise_sortDescBy {α : Type} (f : α → ℚ) (l : List α) :
    (sortDescBy f l).Pairwise (fun u v => f v ≤ f u) := by
  induction l with
  | nil => simp [sortDescBy]
  | cons a t ih => exact pairwise_insertDescBy f a _ ih

lemma mem_sortDescBy {α : Type} (f : α → ℚ) (x : α) :
    ∀ l : List α, x ∈ sortDescBy f l ↔ x ∈ l := by
  intro l
  induction l with
  | nil => simp [sortDescBy]
  | cons a t ih =>
    show x ∈ insertDescBy f a (sortDescBy f t) ↔ _
    rw [mem_insertDescBy, ih]
    simp

lemma mem_rankRows {l : List (ℕ × ℚ)} {k : ℕ} {x : ℕ × ℕ × ℚ}
    (hx : x ∈ Search.rankRows l k) : x.1 ∈ l.map Prod.fst ∧ 1 ≤ x.2.1 := by
  simp only [Search.rankRows, List.mem_map] at hx
  obtain ⟨p, hp, rfl⟩ := hx
  rw [List.enum_eq_zip_range] at hp
  have hmem : p.2 ∈ l.take k := ((List.of_mem_zip hp).2)
  refine ⟨?_, Nat.le_add_left 1 p.1⟩
  exact List.mem_map.mpr ⟨p.2, (List.take_sublist k l).mem hmem, rfl⟩

lemma lookupRank_some {rows : List (ℕ × ℕ × ℚ)} {i : ℕ} {v : ℕ × ℚ}
    (h : Search.lookupRank rows i = some v) : (i, v) ∈ rows := by
  simp only [Search.lookupRank, Option.map_eq_some'] at h
  obtain ⟨r, hr, rfl⟩ := h
  have hmem := List.mem_of_find?_eq_some hr
  have hpred := List.find?_some hr
  simp only [decide_eq_true_eq] at hpred
  rcases r with ⟨ri, rv⟩
  simp only at hpred
  subst hpred
  exact hmem

lemma fusedCandidates_inv {fts vec : List (ℕ × ℚ)} {k : ℕ}
    {c : Search.CandidateRow} (hc : c ∈ Search.fusedCandidates fts vec k) :
    (c.id ∈ fts.map Prod.fst ∨ c.id ∈ vec.map Prod.fst)
    ∧ (∀ n, c.fts_rank = some n → 1 ≤ n)
    ∧ (∀ n, c.vec_rank = some n → 1 ≤ n) := by
  simp only [Search.fusedCandidates, List.mem_append] at hc
  rcases hc with hc | hc
  · rw [List.mem_map] at hc
    obtain ⟨r, hr, heq⟩ := hc
    have hinv := mem_rankRows hr
    rcases hlook : Search.lookupRank (Search.rankRows vec k) r.1 with _ | v
    · rw [hlook] at heq
      subst heq
      refine ⟨Or.inl hinv.1, ?_, ?_⟩
      · intro n hn
        injection hn with hn
        omega
      · intro n hn
        cases hn
    · rw [hlook] at heq
      subst heq
      have hv := mem_rankRows (lookupRank_some hlook)
      refine ⟨Or.inl hinv.1, ?_, ?_⟩
      · intro n hn
        injection hn with hn
        omega
      · intro n hn
        injection hn with hn
        subst hn
        exact hv.2
  · rw [List.mem_map] at hc
    obtain ⟨v, hv, hveq⟩ := hc
    have hvmem : v ∈ Search.rankRows vec k := (List.mem_filter.mp hv).1
    have hinv := mem_rankRows hvmem
    subst hveq
    refine ⟨Or.inr hinv.1, ?_, ?_⟩
    · intro n hn
      cases hn
    · intro n hn
      injection hn with hn
      subst hn
      exact hinv.2

lemma rrfTerm_bounds {k : ℚ} (hk : 0 ≤ k) (r : Option ℕ)
    (hr : ∀ n, r = some n → 1 ≤ n) :
    0 ≤ Search.rrfTerm k r ∧ Search.rrfTerm k r ≤ 1 / (k + 1) := by
  have hden : (0 : ℚ) < k + 1 := by linarith
  rcases r with _ | n
  · constructor
    · simp [Search.rrfTerm]
    · simp only [Search.rrfTerm]
      positivity
  · have h1 : 1 ≤ n := hr n rfl
    have hn1 : (1 : ℚ) ≤ (n : ℚ) := by exact_mod_cast h1
    have hpos : (0 : ℚ) < k + (n : ℚ) := by linarith
    constructor
    · simp only [Search.rrfTerm]
      positivity
    · simp only [Search.rrfTerm]
      exact one_div_le_one_div_of_le hden (by linarith)

lemma combinedScore_bounds {rrf_k wf wv : ℚ} (hwf : 0 ≤ wf) (hwv : 0 ≤ wv)
    (hk : 0 ≤ rrf_k) {fR vR : Option ℕ}
    (hfR : ∀ n, fR = some n → 1 ≤ n) (hvR : ∀ n, vR = some n → 1 ≤ n) :
    0 ≤ Search.combinedScore rrf_k wf wv fR vR
    ∧ Search.combinedScore rrf_k wf wv fR vR ≤ wf / (rrf_k + 1) + wv / (rrf_k + 1) := by
  obtain ⟨hf0, hf1⟩ := rrfTerm_bounds hk fR hfR
  obtain ⟨hv0, hv1⟩ := rrfTerm_bounds hk vR hvR
  unfold Search.combinedScore
  constructor
  · positivity
  · have h1 : Search.rrfTerm rrf_k fR * wf ≤ (1 / (rrf_k + 1)) * wf :=
      mul_le_mul_of_nonneg_right hf1 hwf
    have h2 : Search.rrfTerm rrf_k vR * wv ≤ (1 / (rrf_k + 1)) * wv :=
      mul_le_mul_of_nonneg_right hv1 hwv
    have e1 : (1 / (rrf_k + 1)) * wf = wf / (rrf_k + 1) := by ring
    have e2 : (1 / (rrf_k + 1)) * wv = wv / (rrf_k + 1) := by ring
    linarith

lemma mem_searchRows_decomp {docs : ℕ → Option (String × String)}
    {fts vec : List (ℕ × ℚ)} {k : ℕ} {rrf_k wf wv : ℚ} {limit : ℕ}
    {r : SearchResult}
    (hr : r ∈ Search.searchRows docs fts vec k rrf_k wf wv limit) :
    ∃ c ∈ Search.fusedCandidates fts vec k,
      r.id = c.id
      ∧ r.combined_rank = Search.combinedScore rrf_k wf wv c.fts_rank c.vec_rank := by
  simp only [Search.searchRows] at hr
  have hr' := (List.take_sublist limit _).mem hr
  rw [mem_sortDescBy] at hr'
  rw [List.mem_filterMap] at hr'
  obtain ⟨c, hc, heq⟩ := hr'
  refine ⟨c, hc, ?_⟩
  rcases hd : docs c.id with _ | tc
  · rw [hd] at heq
    cases heq
  · rcases tc with ⟨t, ct⟩
    rw [hd] at heq
    injection heq with heq
    subst heq
    exact ⟨rfl, rfl⟩

/-- Embedding-generation outcome that makes `search_documents` raise: a
service exception, or an empty embedding list (`if not query_embedding`). -/
def embedFailed : Except String (List ℚ) → Bool
  | .error _ => true
  | .ok v => v.isEmpty

lemma searchRows_nil (docs : ℕ → Option (String × String)) (k : ℕ)
    (rrf_k wf wv : ℚ) (limit : ℕ) :
    Search.searchRows docs [] [] k rrf_k wf wv limit = [] := by
  simp [Search.searchRows, Search.fusedCandidates, Search.rankRows, sortDescBy]

/-! ## Claim theorems -/

/-- C10: the server's `graph_walk` tool always passes the keyword arguments
`use_mmr`, `mmr_lambda` and `mmr_adjacent_k` to `recursive_graph_walk`,
whose signature (with no `**kwargs`) does not accept them, so whenever seed
documents are obtained the call raises `TypeError` before any traversal; in
particular `mmr_graph_walk` is never reached through this tool (the handler
never references it). -/
theorem claim_C10_graph_walk_tool_type_error :
    Server.bindsWithoutTypeError Server.recursive_graph_walk_params
      Server.graph_walk_call_kwargs = false
    ∧ ("use_mmr" ∈ Server.graph_walk_call_kwargs
        ∧ "use_mmr" ∉ Server.recursive_graph_walk_params)
    ∧ ("mmr_lambda" ∈ Server.graph_walk_call_kwargs
        ∧ "mmr_lambda" ∉ Server.recursive_graph_walk_params)
    ∧ ("mmr_adjacent_k" ∈ Server.graph_walk_call_kwargs
        ∧ "mmr_adjacent_k" ∉ Server.recursive_graph_walk_params) := by
  decide

/-- C9: `search_documents` raises iff query-embedding generation fails (a
service error or an empty embedding vector); when it succeeds and both
search methods produce zero candidates, the result is `ok []`, not an
error. -/
theorem claim_C9_error_iff_embedding_failure :
    ∀ (docs : ℕ → Option (String × String)) (embed : Except String (List ℚ))
      (fts vec : List (ℕ × ℚ)) (k : ℕ) (rrf_k wf wv : ℚ) (limit : ℕ),
    ((Search.search_documents docs embed fts vec k rrf_k wf wv limit).isOk = false
      ↔ embedFailed embed = true)
    ∧ (embedFailed embed = false →
        Search.search_documents docs embed [] [] k rrf_k wf wv limit = .ok []) := by
  intro docs embed fts vec k rrf_k wf wv limit
  rcases embed with e | v
  · constructor
    · simp [Search.search_documents, embedFailed, Except.isOk, Except.toBool]
    · intro h
      simp [embedFailed] at h
  · constructor
    · by_cases hv : v.isEmpty
      · simp [Search.search_documents, embedFailed, hv, Except.isOk, Except.toBool]
      · simp [Search.search_documents, embedFailed, hv, Except.isOk, Except.toBool]
    · intro h
      simp only [embedFailed] at h
      simp [Search.search_documents, h, searchRows_nil]

/-- Witness for C9 at a concrete successful embedding. -/
theorem claim_C9_witness :
    embedFailed (.ok [1]) = false
    ∧ Search.search_documents (fun _ => none) (.ok [1]) [] [] 10 60 1 1 3 = .ok [] := by
  have h := claim_C9_error_iff_embedding_failure (fun _ => none) (.ok [1]) [] [] 10 60 1 1 3
  exact ⟨by decide, h.2 (by decide)⟩

/-- C2 (amended): `search_documents` returns its candidates sorted by fused
score descending and, as a pure function of its inputs, deterministically;
but the SQL orders by `combined_rank DESC` alone, so candidates with equal
fused score appear in join enumeration order (FTS matches first, then
vector-only matches), not by ascending document id. -/
theorem claim_C2_sorted_by_fused_score :
    ∀ (docs : ℕ → Option (String × String)) (fts vec : List (ℕ × ℚ))
      (k : ℕ) (rrf_k wf wv : ℚ) (limit : ℕ),
    (Search.searchRows docs fts vec k rrf_k wf wv limit).Pairwise
      (fun a b => b.combined_rank ≤ a.combined_rank) := by
  intro docs fts vec k rrf_k wf wv limit
  simp only [Search.searchRows]
  exact List.Pairwise.sublist (List.take_sublist _ _) (pairwise_sortDescBy _ _)

/-- C2 counterexample: with one FTS-only candidate (id 5, FTS rank 1) and
one vector-only candidate (id 3, vector rank 1), default weights and
`rrf_k = 60`, both fused scores are `1/61`, yet id 5 is returned before
id 3 — equal scores are NOT broken by ascending document id. -/
theorem claim_C2_counterexample :
    (Search.searchRows (fun _ => some ("t", "c")) [(5, -1)] [(3, 1/2)] 10 60 1 1 3).map
        (fun r => r.id) = [5, 3]
    ∧ (Search.searchRows (fun _ => some ("t", "c")) [(5, -1)] [(3, 1/2)] 10 60 1 1 3).map
        (fun r => r.combined_rank) = [1/61, 1/61]
    ∧ (3 : ℕ) < 5 := by
  refine ⟨?_, ?_, by decide⟩
  · norm_num [Search.searchRows, Search.fusedCandidates, Search.rankRows,
      Search.lookupRank, Search.combinedScore, Search.rrfTerm, sortDescBy,
      insertDescBy, List.enum, List.enumFrom, List.filterMap_cons]
  · norm_num [Search.searchRows, Search.fusedCandidates, Search.rankRows,
      Search.lookupRank, Search.combinedScore, Search.rrfTerm, sortDescBy,
      insertDescBy, List.enum, List.enumFrom, List.filterMap_cons]

/-- C4: for non-negative weights (and the non-negative RRF constant the
parameter documents), every combined score returned by `search_documents`
lies in `[0, weight_fts/(rrf_k+1) + weight_vec/(rrf_k+1)]`, and every
returned document appears in at least one of the two method candidate
lists. -/
theorem claim_C4_score_bounds_and_provenance :
    ∀ (docs : ℕ → Option (String × String)) (embed : Except String (List ℚ))
      (fts vec : List (ℕ × ℚ)) (k : ℕ) (rrf_k wf wv : ℚ) (limit : ℕ)
      (rs : List SearchResult) (r : SearchResult),
    0 ≤ wf → 0 ≤ wv → 0 ≤ rrf_k →
    Search.search_documents docs embed fts vec k rrf_k wf wv limit = .ok rs →
    r ∈ rs →
    (0 ≤ r.combined_rank ∧ r.combined_rank ≤ wf / (rrf_k + 1) + wv / (rrf_k + 1))
    ∧ (r.id ∈ fts.map Prod.fst ∨ r.id ∈ vec.map Prod.fst) := by
  intro docs embed fts vec k rrf_k wf wv limit rs r hwf hwv hk hok hr
  have hrs : rs = Search.searchRows docs fts vec k rrf_k wf wv limit := by
    rcases embed with e | v
    · cases hok
    · simp only [Search.search_documents] at hok
      split at hok
      · cases hok
      · injection hok with hok
        exact hok.symm
  subst hrs
  obtain ⟨c, hc, hid, hscore⟩ := mem_searchRows_decomp hr
  obtain ⟨hprov, hfR, hvR⟩ := fusedCandidates_inv hc
  refine ⟨?_, ?_⟩
  · rw [hscore]
    exact combinedScore_bounds hwf hwv hk hfR hvR
  · rw [hid]
    exact hprov

/-- Witness for C4 at a concrete input (one FTS candidate, empty vector
list, default parameters). -/
theorem claim_C4_witness :
    ((0 : ℚ) ≤ 1 ∧ (0 : ℚ) ≤ 1 ∧ (0 : ℚ) ≤ 60
      ∧ Search.search_documents (fun _ => some ("t", "c")) (.ok [1]) [(5, -1)] [] 10 60 1 1 3
          = .ok [⟨5, "t", "c", none, some 1, 1/61, none, some (-1)⟩]
      ∧ (⟨5, "t", "c", none, some 1, 1/61, none, some (-1)⟩ : SearchResult)
          ∈ [(⟨5, "t", "c", none, some 1, 1/61, none, some (-1)⟩ : SearchResult)])
    ∧ ((0 ≤ (1/61 : ℚ) ∧ (1/61 : ℚ) ≤ 1 / (60 + 1) + 1 / (60 + 1))
      ∧ ((5 : ℕ) ∈ [(5, -1)].map (Prod.fst (α := ℕ) (β := ℚ))
          ∨ (5 : ℕ) ∈ ([] : List (ℕ × ℚ)).map Prod.fst)) := by
  have h1 : (0 : ℚ) ≤ 1 := by norm_num
  have h3 : (0 : ℚ) ≤ 60 := by norm_num
  have h4 : Search.search_documents (fun _ => some ("t", "c")) (.ok [1]) [(5, -1)] [] 10 60 1 1 3
      = .ok [⟨5, "t", "c", none, some 1, 1/61, none, some (-1)⟩] := by
    norm_num [Search.search_documents, Search.searchRows, Search.fusedCandidates,
      Search.rankRows, Search.lookupRank, Search.combinedScore, Search.rrfTerm,
      sortDescBy, insertDescBy, List.enum, List.enumFrom, List.filterMap_cons,
      List.isEmpty]
  have h5 : (⟨5, "t", "c", none, some 1, 1/61, none, some (-1)⟩ : SearchResult)
      ∈ [(⟨5, "t", "c", none, some 1, 1/61, none, some (-1)⟩ : SearchResult)] :=
    List.mem_singleton.mpr rfl
  exact ⟨⟨h1, h1, h3, h4, h5⟩,
    claim_C4_score_bounds_and_provenance _ _ _ _ _ _ _ _ _ _ _ h1 h1 h3 h4 h5⟩

/-- Strictly-better rank comparison with absence counting as the worst
possible rank: a present rank beats absence, and a smaller present rank
beats a larger one. -/
def rankBetter (a b : Option ℕ) : Bool :=
  match a, b with
  | some _, none => true
  | some r, some s => decide (r < s)
  | none, _ => false

lemma rrfTerm_mono {k : ℚ} (hk : 0 ≤ k) {a b : Option ℕ}
    (ha : ∀ n, a = some n → 1 ≤ n)
    (hab : rankBetter a b = true) :
    Search.rrfTerm k b ≤ Search.rrfTerm k a := by
  rcases a with _ | r
  · cases hab
  · have hr : 1 ≤ r := ha r rfl
    have hr1 : (1 : ℚ) ≤ (r : ℚ) := by exact_mod_cast hr
    have hposr : (0 : ℚ) < k + (r : ℚ) := by linarith
    rcases b with _ | s
    · simp only [Search.rrfTerm]
      positivity
    · simp only [rankBetter, decide_eq_true_eq] at hab
      have hrs : (r : ℚ) ≤ (s : ℚ) := by exact_mod_cast le_of_lt hab
      simp only [Search.rrfTerm]
      exact one_div_le_one_div_of_le hposr (by linarith)

/-- C5: with non-negative weights and RRF constant, if document A's rank is
strictly better than B's in both methods, or ties in one method and is
strictly better in the other (absence counting as the worst rank), then A's
fused score is at least B's. -/
theorem claim_C5_rank_monotonicity :
    ∀ (rrf_k wf wv : ℚ) (fA vA fB vB : Option ℕ),
    0 ≤ wf → 0 ≤ wv → 0 ≤ rrf_k →
    (∀ n, fA = some n → 1 ≤ n) → (∀ n, vA = some n → 1 ≤ n) →
    ((rankBetter fA fB = true ∧ rankBetter vA vB = true)
      ∨ (fA = fB ∧ rankBetter vA vB = true)
      ∨ (rankBetter fA fB = true ∧ vA = vB)) →
    Search.combinedScore rrf_k wf wv fB vB ≤ Search.combinedScore rrf_k wf wv fA vA := by
  intro rrf_k wf wv fA vA fB vB hwf hwv hk hfA hvA hcase
  have hf : Search.rrfTerm rrf_k fB ≤ Search.rrfTerm rrf_k fA := by
    rcases hcase with ⟨h, _⟩ | ⟨h, _⟩ | ⟨h, _⟩
    · exact rrfTerm_mono hk hfA h
    · rw [h]
    · exact rrfTerm_mono hk hfA h
  have hv : Search.rrfTerm rrf_k vB ≤ Search.rrfTerm rrf_k vA := by
    rcases hcase with ⟨_, h⟩ | ⟨_, h⟩ | ⟨_, h⟩
    · exact rrfTerm_mono hk hvA h
    · exact rrfTerm_mono hk hvA h
    · rw [h]
  unfold Search.combinedScore
  exact add_le_add (mul_le_mul_of_nonneg_right hf hwf) (mul_le_mul_of_nonneg_right hv hwv)

/-- Witness for C5: A at FTS rank 1 and vector rank 1, B at FTS rank 2 and
absent from the vector list. -/
theorem claim_C5_witness :
    ((0 : ℚ) ≤ 1 ∧ (0 : ℚ) ≤ 60
      ∧ (∀ n, (some 1 : Option ℕ) = some n → 1 ≤ n)
      ∧ (rankBetter (some 1) (some 2) = true ∧ rankBetter (some 1) none = true))
    ∧ Search.combinedScore 60 1 1 (some 2) none
        ≤ Search.combinedScore 60 1 1 (some 1) (some 1) := by
  have h1 : (0 : ℚ) ≤ 1 := by norm_num
  have h60 : (0 : ℚ) ≤ 60 := by norm_num
  have hs1 : ∀ n, (some 1 : Option ℕ) = some n → 1 ≤ n := by
    intro n h
    injection h with h
    omega
  have hb : rankBetter (some 1) (some 2) = true ∧ rankBetter (some 1) none = true := by
    decide
  exact ⟨⟨h1, h60, hs1, hb⟩,
    claim_C5_rank_monotonicity 60 1 1 (some 1) (some 1) (some 2) none
      h1 h1 h60 hs1 hs1 (Or.inl hb)⟩

/-- C7: after each MMR selection, every remaining frontier candidate's
`max_redundancy` is replaced by the maximum of its previous value and the
similarity of its embedding to the newly selected node's embedding — hence
never decreases. -/
theorem claim_C7_redundancy_never_decreases :
    ∀ (E : Type) (sim : E → E → ℚ) (bestEmb : E)
      (cands : List (MMR.MMRCandidate E)) (c : MMR.MMRCandidate E),
    c ∈ cands →
    ∃ c' ∈ MMR.updateRedundancies sim bestEmb cands,
      c'.id = c.id
      ∧ c'.max_redundancy = max c.max_redundancy (sim c.embedding bestEmb)
      ∧ c.max_redundancy ≤ c'.max_redundancy := by
  intro E sim bestEmb cands c hc
  refine ⟨{ c with max_redundancy := max c.max_redundancy (sim c.embedding bestEmb) },
    ?_, rfl, rfl, le_max_left _ _⟩
  exact List.mem_map.mpr ⟨c, hc, rfl⟩

/-- Witness for C7 at a one-candidate frontier with a multiplicative
similarity stub. -/
theorem claim_C7_witness :
    ((⟨1, "t", "c", 2, 1/2, 0, 0⟩ : MMR.MMRCandidate ℕ)
        ∈ [(⟨1, "t", "c", 2, 1/2, 0, 0⟩ : MMR.MMRCandidate ℕ)])
    ∧ ∃ c' ∈ MMR.updateRedundancies (fun a b => ((a * b : ℕ) : ℚ)) 3
        [(⟨1, "t", "c", 2, 1/2, 0, 0⟩ : MMR.MMRCandidate ℕ)],
        c'.id = (⟨1, "t", "c", 2, 1/2, 0, 0⟩ : MMR.MMRCandidate ℕ).id
        ∧ c'.max_redundancy
            = max (⟨1, "t", "c", 2, 1/2, 0, 0⟩ : MMR.MMRCandidate ℕ).max_redundancy
                ((fun (a b : ℕ) => ((a * b : ℕ) : ℚ))
                  (⟨1, "t", "c", 2, 1/2, 0, 0⟩ : MMR.MMRCandidate ℕ).embedding 3)
        ∧ (⟨1, "t", "c", 2, 1/2, 0, 0⟩ : MMR.MMRCandidate ℕ).max_redundancy
            ≤ c'.max_redundancy := by
  have hmem : (⟨1, "t", "c", 2, 1/2, 0, 0⟩ : MMR.MMRCandidate ℕ)
      ∈ [(⟨1, "t", "c", 2, 1/2, 0, 0⟩ : MMR.MMRCandidate ℕ)] :=
    List.mem_singleton.mpr rfl
  exact ⟨hmem,
    claim_C7_redundancy_never_decreases ℕ (fun a b => ((a * b : ℕ) : ℚ)) 3 _ _ hmem⟩

/-- The fold underlying `pythonMaxBy` on a nonempty list. -/
def pythonFold {α : Type} (f : α → ℚ) (a : α) (l : List α) : α :=
  l.foldl (fun best x => if f best < f x then x else best) a

lemma pythonFold_split {α : Type} (f : α → ℚ) :
    ∀ (l : List α) (a : α),
    ∃ l₁ l₂, a :: l = l₁ ++ pythonFold f a l :: l₂
      ∧ (∀ x ∈ l₁, f x < f (pythonFold f a l))
      ∧ (∀ x ∈ l₂, f x ≤ f (pythonFold f a l)) := by
  intro l
  induction l with
  | nil =>
    intro a
    exact ⟨[], [], rfl, by simp, by simp⟩
  | cons x xs ih =>
    intro a
    by_cases hax : f a < f x
    · have hm : pythonFold f a (x :: xs) = pythonFold f x xs := by
        simp only [pythonFold, List.foldl_cons, if_pos hax]
      obtain ⟨l₁, l₂, heq, h₁, h₂⟩ := ih x
      have hxm : f x ≤ f (pythonFold f x xs) := by
        rcases l₁ with _ | ⟨y, t⟩
        · rw [List.nil_append] at heq
          injection heq with h1 h2
          exact le_of_eq (congrArg f h1)
        · rw [List.cons_append] at heq
          injection heq with h1 h2
          conv_lhs => rw [h1]
          exact le_of_lt (h₁ y (List.mem_cons_self y t))
      rw [hm]
      refine ⟨a :: l₁, l₂, ?_, ?_, h₂⟩
      · rw [List.cons_append, ← heq]
      · intro z hz
        rcases List.mem_cons.mp hz with rfl | hz
        · exact lt_of_lt_of_le hax hxm
        · exact h₁ z hz
    · have hm : pythonFold f a (x :: xs) = pythonFold f a xs := by
        simp only [pythonFold, List.foldl_cons, if_neg hax]
      obtain ⟨l₁, l₂, heq, h₁, h₂⟩ := ih a
      rw [hm]
      rcases l₁ with _ | ⟨y, t⟩
      · rw [List.nil_append] at heq
        injection heq with h1 h2
        refine ⟨[], x :: l₂, ?_, by simp, ?_⟩
        · rw [List.nil_append, ← h1, ← h2]
        · intro z hz
          rcases List.mem_cons.mp hz with rfl | hz
          · rw [← h1]
            exact le_of_not_lt hax
          · exact h₂ z hz
      · rw [List.cons_append] at heq
        injection heq with h1 h2
        refine ⟨a :: x :: t, l₂, ?_, ?_, h₂⟩
        · rw [List.cons_append, List.cons_append, ← h2]
        · intro z hz
          have hym : f y < f (pythonFold f a xs) := h₁ y (List.mem_cons_self y t)
          have ham : f a < f (pythonFold f a xs) := by
            conv_lhs => rw [h1]
            exact hym
          rcases List.mem_cons.mp hz with rfl | hz'
          · exact ham
          · rcases List.mem_cons.mp hz' with rfl | hz''
            · exact lt_of_le_of_lt (le_of_not_lt hax) ham
            · exact h₁ z (List.mem_cons_of_mem y hz'')

lemma pythonMaxBy_split {α : Type} {f : α → ℚ} {l : List α} {c : α}
    (h : pythonMaxBy f l = some c) :
    ∃ l₁ l₂, l = l₁ ++ c :: l₂
      ∧ (∀ x ∈ l₁, f x < f c) ∧ (∀ x ∈ l₂, f x ≤ f c) := by
  rcases l with _ | ⟨a, t⟩
  · cases h
  · simp only [pythonMaxBy, Option.some.injEq] at h
    subst h
    exact pythonFold_split f t a

lemma pythonMaxBy_mem {α : Type} {f : α → ℚ} {l : List α} {c : α}
    (h : pythonMaxBy f l = some c) : c ∈ l := by
  obtain ⟨l₁, l₂, heq, -, -⟩ := pythonMaxBy_split h
  rw [heq]
  exact List.mem_append.mpr (Or.inr (List.mem_cons_self c l₂))

lemma pythonMaxBy_ge {α : Type} {f : α → ℚ} {l : List α} {c : α}
    (h : pythonMaxBy f l = some c) : ∀ x ∈ l, f x ≤ f c := by
  obtain ⟨l₁, l₂, heq, h₁, h₂⟩ := pythonMaxBy_split h
  intro x hx
  rw [heq] at hx
  rcases List.mem_append.mp hx with hx | hx
  · exact le_of_lt (h₁ x hx)
  · rcases List.mem_cons.mp hx with rfl | hx
    · exact le_refl _
    · exact h₂ x hx

/-- C6 (amended): the selection step of both walks — Python's
`max(..., key=...)` in `recursive_graph_walk` and the `score > best_score`
loop in `mmr_graph_walk`, both embedded as `pythonMaxBy` — returns the FIRST
element attaining the maximal score in iteration order (every earlier
element scores strictly less, every later one at most as much). For the
recursive walk the iteration order is the store's neighbor-list order; for
the MMR walk it is candidate insertion order (seeds in seed order, then
discovered neighbors), not ascending document id. -/
theorem claim_C6_first_maximal_selected :
    ∀ (α : Type) (f : α → ℚ) (l : List α) (c : α),
    pythonMaxBy f l = some c →
    ∃ l₁ l₂, l = l₁ ++ c :: l₂
      ∧ (∀ x ∈ l₁, f x < f c) ∧ (∀ x ∈ l₂, f x ≤ f c) :=
  fun _ _ _ _ h => pythonMaxBy_split h

/-- Witness for C6 (amended) on a concrete two-element list. -/
theorem claim_C6_witness :
    pythonMaxBy (fun x : ℚ => x) [1/2, 1] = some 1
    ∧ ∃ l₁ l₂, [1/2, (1 : ℚ)] = l₁ ++ (1 : ℚ) :: l₂
      ∧ (∀ x ∈ l₁, x < (1 : ℚ)) ∧ (∀ x ∈ l₂, x ≤ (1 : ℚ)) := by
  have h : pythonMaxBy (fun x : ℚ => x) [1/2, 1] = some 1 := by
    norm_num [pythonMaxBy, List.foldl]
  exact ⟨h, claim_C6_first_maximal_selected ℚ (fun x => x) [1/2, 1] 1 h⟩

/-- C6 counterexample: two seeds with identical similarity `1/2` (constant
similarity stub), seed order `[5, 3]`, `lambda = 1`, `select_k = 2`,
`max_depth = 5`, thresholds 0. The initial frontier holds candidates 5 and 3
with EQUAL maximal MMR score, yet the walk selects id 5 first — not the
smallest id 3 — because ties go to the first candidate in insertion order. -/
theorem claim_C6_counterexample :
    MMR.initSeeds (fun n => some n) (fun _ _ => (1/2 : ℚ)) 0
        [⟨5, "t", "c", none, none, 0, none, none⟩, ⟨3, "t", "c", none, none, 0, none, none⟩]
      = ([⟨5, "t", "c", 5, 1/2, 0, 0⟩, ⟨3, "t", "c", 3, 1/2, 0, 0⟩], [5, 3])
    ∧ (⟨5, "t", "c", 5, 1/2, 0, 0⟩ : MMR.MMRCandidate ℕ).mmr_score 1
        = (⟨3, "t", "c", 3, 1/2, 0, 0⟩ : MMR.MMRCandidate ℕ).mmr_score 1
    ∧ (MMR.mmr_graph_walk (fun _ => []) (fun n => some n) (fun _ => some ("t", "c"))
        (fun _ _ => 1/2)
        [⟨5, "t", "c", none, none, 0, none, none⟩, ⟨3, "t", "c", none, none, 0, none, none⟩]
        0 1 2 5 0 0).map (fun s => s.id) = [5, 3]
    ∧ (3 : ℕ) < 5 := by
  refine ⟨?_, ?_, ?_, by decide⟩
  · norm_num [MMR.initSeeds, dictInsertBy, List.foldl]
  · norm_num [MMR.MMRCandidate.mmr_score]
  · norm_num [MMR.mmr_graph_walk, MMR.initSeeds, MMR.mmrLoop, MMR.MMRCandidate.mmr_score,
      MMR.updateRedundancies, MMR.expandFrontier, MMR.mmrDetails, pythonMaxBy,
      dictInsertBy, sortDescBy, insertDescBy, List.foldl, List.eraseP]

lemma mmr_score_lambda_one {E : Type} (c : MMR.MMRCandidate E) :
    c.mmr_score 1 = c.similarity := by
  simp only [MMR.MMRCandidate.mmr_score]
  ring

lemma updateRedundancies_similarity {E : Type} {sim : E → E → ℚ} {e : E}
    {l : List (MMR.MMRCandidate E)} {c' : MMR.MMRCandidate E}
    (h : c' ∈ MMR.updateRedundancies sim e l) :
    ∃ c ∈ l, c'.similarity = c.similarity := by
  rw [MMR.updateRedundancies, List.mem_map] at h
  obtain ⟨c, hc, rfl⟩ := h
  exact ⟨c, hc, rfl⟩

lemma mmrLoop_depth0_scores_le {E : Type} (nb : ℕ → List ℕ) (emb : ℕ → Option E)
    (docs : ℕ → Option (String × String)) (sim : E → E → ℚ) (q : E)
    (ak : ℕ) (ms : ℚ) :
    ∀ (fuel : ℕ) (cands : List (MMR.MMRCandidate E)) (visited : List ℕ)
      (selEmb : List E) (B : ℚ),
    (∀ c ∈ cands, c.similarity ≤ B) →
    ∀ st ∈ MMR.mmrLoop nb emb docs sim q 1 ak 0 ms fuel cands visited selEmb,
      st.combined_score ≤ B := by
  intro fuel
  induction fuel with
  | zero =>
    intro cands visited selEmb B hB st hst
    simp [MMR.mmrLoop] at hst
  | succ n ih =>
    intro cands visited selEmb B hB st hst
    rw [MMR.mmrLoop] at hst
    rcases hbest : pythonMaxBy (fun c => c.mmr_score 1) cands with _ | best
    · rw [hbest] at hst
      simp at hst
    · rw [hbest] at hst
      simp only [Nat.not_lt_zero, if_false] at hst
      by_cases hms : best.mmr_score 1 < ms
      · rw [if_pos hms] at hst
        simp at hst
      · rw [if_neg hms] at hst
        rcases List.mem_cons.mp hst with rfl | hst
        · have : best.similarity ≤ B := hB best (pythonMaxBy_mem hbest)
          simpa [mmr_score_lambda_one] using this
        · refine ih _ _ _ B ?_ st hst
          intro c hc
          obtain ⟨c₀, hc₀, hsim⟩ := updateRedundancies_similarity hc
          have hc₀' : c₀ ∈ cands := ((List.eraseP_sublist cands).mem hc₀)
          rw [hsim]
          exact hB c₀ hc₀'

lemma mmrLoop_depth0_sorted {E : Type} (nb : ℕ → List ℕ) (emb : ℕ → Option E)
    (docs : ℕ → Option (String × String)) (sim : E → E → ℚ) (q : E)
    (ak : ℕ) (ms : ℚ) :
    ∀ (fuel : ℕ) (cands : List (MMR.MMRCandidate E)) (visited : List ℕ)
      (selEmb : List E),
    ((MMR.mmrLoop nb emb docs sim q 1 ak 0 ms fuel cands visited selEmb).map
      (fun st => st.combined_score)).Pairwise (fun a b => b ≤ a) := by
  intro fuel
  induction fuel with
  | zero =>
    intro cands visited selEmb
    simp [MMR.mmrLoop]
  | succ n ih =>
    intro cands visited selEmb
    rw [MMR.mmrLoop]
    rcases hbest : pythonMaxBy (fun c => c.mmr_score 1) cands with _ | best
    · rw [hbest]
      simp
    · rw [hbest]
      simp only [Nat.not_lt_zero, if_false]
      by_cases hms : best.mmr_score 1 < ms
      · rw [if_pos hms]
        simp
      · rw [if_neg hms]
        rw [List.map_cons, List.pairwise_cons]
        refine ⟨?_, ih _ _ _⟩
        intro y hy
        rw [List.mem_map] at hy
        obtain ⟨st, hst, rfl⟩ := hy
        refine mmrLoop_depth0_scores_le nb emb docs sim q ak ms n _ _ _
          (best.mmr_score 1) ?_ st hst
        intro c hc
        obtain ⟨c₀, hc₀, hsim⟩ := updateRedundancies_similarity hc
        have hc₀' : c₀ ∈ cands := ((List.eraseP_sublist cands).mem hc₀)
        rw [hsim, ← mmr_score_lambda_one c₀]
        exact pythonMaxBy_ge hbest c₀ hc₀'

lemma mmrLoop_lambda_one_head_detail {E : Type} (nb : ℕ → List ℕ)
    (emb : ℕ → Option E) (docs : ℕ → Option (String × String))
    (sim : E → E → ℚ) (q : E) (ak md : ℕ) (ms : ℚ) :
    ∀ (fuel : ℕ) (cands : List (MMR.MMRCandidate E)) (visited : List ℕ)
      (selEmb : List E),
    (MMR.mmrLoop nb emb docs sim q 1 ak md ms fuel cands visited selEmb).map
        (fun st => st.combined_score)
      = (MMR.mmrLoop nb emb docs sim q 1 ak md ms fuel cands visited selEmb).map
          (fun st => ((st.query_scores.map (fun qs => qs.rrf_score)).headD 0)) := by
  intro fuel
  induction fuel with
  | zero =>
    intro cands visited selEmb
    simp [MMR.mmrLoop]
  | succ n ih =>
    intro cands visited selEmb
    rw [MMR.mmrLoop]
    rcases hbest : pythonMaxBy (fun c => c.mmr_score 1) cands with _ | best
    · rw [hbest]
      simp
    · rw [hbest]
      dsimp only
      by_cases hms : best.mmr_score 1 < ms
      · rw [if_pos hms]
        simp
      · rw [if_neg hms]
        rw [List.map_cons, List.map_cons, ih]
        congr 1
        simp [MMR.mmrDetails, mmr_score_lambda_one]

/-- C8 (amended): with `lambda = 1.0` the redundancy term has zero weight —
each step's combined MMR score equals its similarity to the query (recorded
as the step's first `query_scores` entry) — and, when the frontier is fixed
from the start (`max_depth = 0`, so no expansion occurs), the selected
scores are non-increasing, i.e. selection order equals descending
similarity order. With frontier expansion the ordering claim fails, see the
counterexample. -/
theorem claim_C8_lambda_one_pure_relevance :
    ∀ (E : Type) (neighbors : ℕ → List ℕ) (emb : ℕ → Option E)
      (docs : ℕ → Option (String × String)) (sim : E → E → ℚ)
      (seeds : List SearchResult) (q : E) (select_k adjacent_k : ℕ) (min_score : ℚ),
    ((MMR.mmr_graph_walk neighbors emb docs sim seeds q 1 select_k adjacent_k 0 min_score).map
        (fun st => st.combined_score)).Pairwise (fun a b => b ≤ a)
    ∧ (MMR.mmr_graph_walk neighbors emb docs sim seeds q 1 select_k adjacent_k 0 min_score).map
          (fun st => st.combined_score)
        = (MMR.mmr_graph_walk neighbors emb docs sim seeds q 1 select_k adjacent_k 0 min_score).map
            (fun st => ((st.query_scores.map (fun qs => qs.rrf_score)).headD 0)) := by
  intro E neighbors emb docs sim seeds q select_k adjacent_k min_score
  rw [MMR.mmr_graph_walk]
  by_cases hs : seeds.isEmpty
  · rw [if_pos hs]
    simp
  · rw [if_neg hs]
    exact ⟨mmrLoop_depth0_sorted _ _ _ _ _ _ _ _ _ _ _,
      mmrLoop_lambda_one_head_detail _ _ _ _ _ _ _ _ _ _ _ _⟩

/-- C8 counterexample: one seed (similarity `1/2`) whose neighbor has
similarity `9/10`; with `lambda = 1`, `select_k = 2`, `max_depth = 1` the
walk selects the seed first and the better-scoring neighbor second, so the
similarity sequence `[1/2, 9/10]` of the returned path is NOT descending —
lazy frontier expansion defeats pure relevance ordering. -/
theorem claim_C8_counterexample :
    (MMR.mmr_graph_walk (fun n => if n = 1 then [2] else []) (fun n => some n)
        (fun _ => some ("t", "c"))
        (fun a b => if a + b = 1 then (1/2 : ℚ) else if a + b = 2 then 9/10 else 0)
        [⟨1, "t", "c", none, none, 0, none, none⟩] 0 1 2 5 1 0).map
      (fun s => s.combined_score) = [1/2, 9/10]
    ∧ ¬ (([1/2, 9/10] : List ℚ).Pairwise (fun a b => b ≤ a)) := by
  constructor
  · norm_num [MMR.mmr_graph_walk, MMR.initSeeds, MMR.mmrLoop, MMR.MMRCandidate.mmr_score,
      MMR.updateRedundancies, MMR.expandFrontier, MMR.mmrDetails, pythonMaxBy,
      dictInsertBy, sortDescBy, insertDescBy, List.foldl, List.eraseP, List.filterMap_cons]
  · intro h
    rw [List.pairwise_cons] at h
    have := h.1 (9/10) (List.mem_singleton.mpr rfl)
    norm_num at this

lemma mem_dictInsertBy {α : Type} {key : α → ℕ} {l : List α} {a x : α}
    (h : x ∈ dictInsertBy key l a) : x ∈ l ∨ x = a := by
  rw [dictInsertBy] at h
  split at h
  · rw [List.mem_map] at h
    obtain ⟨y, hy, hxy⟩ := h
    by_cases hk : key y == key a
    · rw [if_pos hk] at hxy
      exact Or.inr hxy.symm
    · rw [if_neg hk] at hxy
      exact Or.inl (hxy ▸ hy)
  · rcases List.mem_append.mp h with h | h
    · exact Or.inl h
    · exact Or.inr (List.mem_singleton.mp h)

lemma dictInsertBy_keys {α : Type} (key : α → ℕ) (l : List α) (a : α) :
    (dictInsertBy key l a).map key = l.map key
    ∨ ((dictInsertBy key l a).map key = l.map key ++ [key a]
        ∧ key a ∉ l.map key) := by
  rw [dictInsertBy]
  split
  · left
    rw [List.map_map]
    apply List.map_congr_left
    intro x _
    by_cases hk : key x == key a
    · simp only [Function.comp_apply, if_pos hk]
      exact (beq_iff_eq.mp hk).symm
    · simp only [Function.comp_apply, if_neg hk]
  · next hany =>
    right
    refine ⟨by simp, ?_⟩
    intro hmem
    rw [List.mem_map] at hmem
    obtain ⟨x, hx, hkey⟩ := hmem
    exact hany (List.any_eq_true.mpr ⟨x, hx, beq_iff_eq.mpr hkey⟩)

lemma foldl_dictInsertBy_prop {α β : Type} (key : α → ℕ) (g : β → α) (P : α → Prop) :
    ∀ (items : List β) (acc : List α),
    (∀ y ∈ acc, P y) → (∀ b ∈ items, P (g b)) →
    ∀ x ∈ items.foldl (fun ac b => dictInsertBy key ac (g b)) acc, P x := by
  intro items
  induction items with
  | nil =>
    intro acc hacc _ x hx
    exact hacc x hx
  | cons b bs ih =>
    intro acc hacc hitems x hx
    rw [List.foldl_cons] at hx
    refine ih (dictInsertBy key acc (g b))
      ?_ (fun b' hb' => hitems b' (List.mem_cons_of_mem b hb')) x hx
    intro y hy
    rcases mem_dictInsertBy hy with hy | rfl
    · exact hacc y hy
    · exact hitems b (List.mem_cons_self b bs)

lemma mem_score_neighbors {se : String → List SearchResult} {ns : List ℕ}
    {qs : List String} {ws : List ℚ} {x : GraphWalk.ScoredNeighbor}
    (hx : x ∈ GraphWalk.score_neighbors_multi_query se ns qs ws) : x.id ∈ ns := by
  rw [GraphWalk.score_neighbors_multi_query] at hx
  exact foldl_dictInsertBy_prop (fun s => s.id)
    (fun n => GraphWalk.scoreOneNeighbor se n qs ws) (fun s => s.id ∈ ns)
    ns [] (by simp) (fun n hn => hn) x hx

lemma walkLoop_length (nb : ℕ → List ℕ) (se : String → List SearchResult)
    (docs : ℕ → Option (String × String)) (th : ℚ) (qw : List ℚ) (mh : ℕ) :
    ∀ (fuel cur : ℕ) (visited : List ℕ) (history : List String),
    (GraphWalk.walkLoop nb se docs th qw mh fuel cur visited history).length ≤ fuel := by
  intro fuel
  induction fuel with
  | zero =>
    intro cur visited history
    simp [GraphWalk.walkLoop]
  | succ n ih =>
    intro cur visited history
    rw [GraphWalk.walkLoop]
    split
    · simp
    · dsimp only
      split
      · simp
      · split
        · simp
        · split
          · simp
          · simp only [List.length_cons]
            exact Nat.succ_le_succ (ih _ _ _)

lemma walkLoop_not_visited (nb : ℕ → List ℕ) (se : String → List SearchResult)
    (docs : ℕ → Option (String × String)) (th : ℚ) (qw : List ℚ) (mh : ℕ) :
    ∀ (fuel cur : ℕ) (visited : List ℕ) (history : List String)
      (st : GraphWalk.WalkStep),
    st ∈ GraphWalk.walkLoop nb se docs th qw mh fuel cur visited history →
    st.id ∉ visited := by
  intro fuel
  induction fuel with
  | zero =>
    intro cur visited history st hst
    simp [GraphWalk.walkLoop] at hst
  | succ n ih =>
    intro cur visited history st hst
    rw [GraphWalk.walkLoop] at hst
    split at hst
    · simp at hst
    · dsimp only at hst
      split at hst
      · simp at hst
      · next best hbest =>
        split at hst
        · simp at hst
        · split at hst
          · simp at hst
          · next t ct hdocs =>
            have hbmem := pythonMaxBy_mem hbest
            have hbid := mem_score_neighbors hbmem
            have hbnv : best.id ∉ visited := by
              have := (List.mem_filter.mp hbid).2
              simpa using this
            rcases List.mem_cons.mp hst with rfl | hst'
            · exact hbnv
            · have hrec := ih _ _ _ st hst'
              intro hmem
              exact hrec (List.mem_append.mpr (Or.inl hmem))

lemma walkLoop_nodup (nb : ℕ → List ℕ) (se : String → List SearchResult)
    (docs : ℕ → Option (String × String)) (th : ℚ) (qw : List ℚ) (mh : ℕ) :
    ∀ (fuel cur : ℕ) (visited : List ℕ) (history : List String),
    ((GraphWalk.walkLoop nb se docs th qw mh fuel cur visited history).map
      (fun st => st.id)).Nodup := by
  intro fuel
  induction fuel with
  | zero =>
    intro cur visited history
    simp [GraphWalk.walkLoop]
  | succ n ih =>
    intro cur visited history
    rw [GraphWalk.walkLoop]
    split
    · simp
    · dsimp only
      split
      · simp
      · next best hbest =>
        split
        · simp
        · split
          · simp
          · next t ct hdocs =>
            rw [List.map_cons, List.nodup_cons]
            refine ⟨?_, ih _ _ _⟩
            intro hmem
            rw [List.mem_map] at hmem
            obtain ⟨st, hst, hid⟩ := hmem
            have := walkLoop_not_visited nb se docs th qw mh _ _ _ _ st hst
            apply this
            rw [hid]
            exact List.mem_append.mpr (Or.inr (List.mem_singleton.mpr rfl))

/-- Invariant maintained while candidates are inserted into the MMR
frontier dict: candidate ids are distinct, every candidate id is visited,
every candidate id was already a key or was unvisited at the start, and the
initial visited set is preserved. -/
def insertFoldInv {E : Type} (keys0 visited0 : List ℕ)
    (st : List (MMR.MMRCandidate E) × List ℕ) : Prop :=
  ((st.1.map fun c => c.id).Nodup)
  ∧ (∀ k ∈ st.1.map fun c => c.id, k ∈ st.2)
  ∧ (∀ k ∈ st.1.map fun c => c.id, k ∈ keys0 ∨ k ∉ visited0)
  ∧ (∀ v ∈ visited0, v ∈ st.2)

lemma foldl_insert_inv {β E : Type}
    (step : (List (MMR.MMRCandidate E) × List ℕ) → β → (List (MMR.MMRCandidate E) × List ℕ))
    (idOf : β → ℕ) (keys0 visited0 : List ℕ)
    (hstep : ∀ st b, step st b = st
      ∨ ∃ c : MMR.MMRCandidate E, c.id = idOf b
          ∧ step st b = (dictInsertBy (fun x => x.id) st.1 c, st.2 ++ [c.id])) :
    ∀ (items : List β) (st : List (MMR.MMRCandidate E) × List ℕ),
    (∀ b ∈ items, idOf b ∉ visited0) →
    insertFoldInv keys0 visited0 st →
    insertFoldInv keys0 visited0 (items.foldl step st) := by
  intro items
  induction items with
  | nil =>
    intro st _ h
    exact h
  | cons b bs ih =>
    intro st hids hinv
    rw [List.foldl_cons]
    refine ih (step st b) (fun b' hb' => hids b' (List.mem_cons_of_mem b hb')) ?_
    rcases hstep st b with heq | ⟨c, hcid, heq⟩
    · rw [heq]
      exact hinv
    · rw [heq]
      obtain ⟨h1, h2, h3, h4⟩ := hinv
      have hbid : idOf b ∉ visited0 := hids b (List.mem_cons_self b bs)
      rcases dictInsertBy_keys (fun x => x.id) st.1 c with hk | ⟨hk, hnk⟩
      · refine ⟨?_, ?_, ?_, ?_⟩
        · show ((dictInsertBy (fun x => x.id) st.1 c).map fun x => x.id).Nodup
          rw [hk]
          exact h1
        · intro k hk'
          rw [hk] at hk'
          exact List.mem_append.mpr (Or.inl (h2 k hk'))
        · intro k hk'
          rw [hk] at hk'
          exact h3 k hk'
        · intro v hv
          exact List.mem_append.mpr (Or.inl (h4 v hv))
      · refine ⟨?_, ?_, ?_, ?_⟩
        · show ((dictInsertBy (fun x => x.id) st.1 c).map fun x => x.id).Nodup
          rw [hk, List.nodup_append]
          refine ⟨h1, List.nodup_singleton _, ?_⟩
          intro k hk' hk''
          rw [List.mem_singleton] at hk''
          subst hk''
          exact hnk hk'
        · intro k hk'
          rw [hk] at hk'
          rcases List.mem_append.mp hk' with hk' | hk'
          · exact List.mem_append.mpr (Or.inl (h2 k hk'))
          · rw [List.mem_singleton] at hk'
            subst hk'
            exact List.mem_append.mpr (Or.inr (List.mem_singleton.mpr rfl))
        · intro k hk'
          rw [hk] at hk'
          rcases List.mem_append.mp hk' with hk' | hk'
          · exact h3 k hk'
          · rw [List.mem_singleton] at hk'
            subst hk'
            rw [hcid]
            exact Or.inr hbid
        · intro v hv
          exact List.mem_append.mpr (Or.inl (h4 v hv))

lemma expandFrontier_ids_unvisited {E : Type} {nb : ℕ → List ℕ}
    {emb : ℕ → Option E} {docs : ℕ → Option (String × String)}
    {sim : E → E → ℚ} {q : E} {bid : ℕ} {visited : List ℕ} {ak : ℕ}
    {c : MMR.NeighborCand E}
    (hc : c ∈ (sortDescBy (fun c => c.similarity)
      (((nb bid).filter fun n => !visited.contains n).filterMap fun n =>
        match emb n, docs n with
        | some e, some (t, ct) => some (MMR.NeighborCand.mk n t ct e (sim q e))
        | _, _ => none)).take ak) :
    c.id ∉ visited := by
  have hc' := (List.take_sublist ak _).mem hc
  rw [mem_sortDescBy] at hc'
  rw [List.mem_filterMap] at hc'
  obtain ⟨n, hn, heq⟩ := hc'
  have hnv : n ∉ visited := by
    have := (List.mem_filter.mp hn).2
    simpa using this
  rcases hemb : emb n with _ | e
  · rw [hemb] at heq
    cases heq
  · rcases hdocs : docs n with _ | tc
    · rw [hemb, hdocs] at heq
      cases heq
    · rcases tc with ⟨t, ct⟩
      rw [hemb, hdocs] at heq
      injection heq with heq
      rw [← heq]
      exact hnv

lemma expandFrontier_inv {E : Type} (nb : ℕ → List ℕ) (emb : ℕ → Option E)
    (docs : ℕ → Option (String × String)) (sim : E → E → ℚ) (q : E)
    (ak : ℕ) (selEmb : List E) (bid bdepth : ℕ)
    (cands : List (MMR.MMRCandidate E)) (visited : List ℕ)
    (hinv : insertFoldInv (cands.map fun c => c.id) visited (cands, visited)) :
    insertFoldInv (cands.map fun c => c.id) visited
      (MMR.expandFrontier nb emb docs sim q ak selEmb bid bdepth cands visited) := by
  rw [MMR.expandFrontier]
  dsimp only
  refine foldl_insert_inv _ (fun c => c.id) _ _ ?_ _ _ ?_ hinv
  · intro st c
    right
    exact ⟨MMR.MMRCandidate.mk c.id c.title c.content c.embedding c.similarity
      (selEmb.foldl (fun m se => max m (sim c.embedding se)) 0) (bdepth + 1), rfl, rfl⟩
  · intro c hc
    exact expandFrontier_ids_unvisited hc

lemma initSeeds_inv {E : Type} (emb : ℕ → Option E) (sim : E → E → ℚ) (q : E)
    (seeds : List SearchResult) :
    (((MMR.initSeeds emb sim q seeds).1.map fun c => c.id).Nodup)
    ∧ (∀ k ∈ (MMR.initSeeds emb sim q seeds).1.map fun c => c.id,
        k ∈ (MMR.initSeeds emb sim q seeds).2) := by
  have h : insertFoldInv ([] : List ℕ) ([] : List ℕ) (MMR.initSeeds emb sim q seeds) := by
    rw [MMR.initSeeds]
    refine foldl_insert_inv _ (fun s => s.id) [] [] ?_ _ _ ?_ ?_
    · intro st s
      rcases hemb : emb s.id with _ | e
      · left
        simp [hemb]
      · right
        refine ⟨MMR.MMRCandidate.mk s.id s.title s.content e (sim q e) 0 0, rfl, ?_⟩
        simp [hemb]
    · intro b _
      simp
    · exact ⟨List.nodup_nil, by simp, by simp, by simp⟩
  exact ⟨h.1, h.2.1⟩

lemma eraseP_id_not_mem {E : Type} :
    ∀ {l : List (MMR.MMRCandidate E)},
    (l.map fun c => c.id).Nodup → ∀ {i : ℕ}, i ∈ l.map (fun c => c.id) →
    i ∉ (l.eraseP fun c => c.id == i).map fun c => c.id := by
  intro l
  induction l with
  | nil =>
    intro _ i hmem
    simp at hmem
  | cons c t ih =>
    intro hnd i hmem
    rw [List.map_cons, List.nodup_cons] at hnd
    by_cases hc : c.id = i
    · have herase : List.eraseP (fun c => c.id == i) (c :: t) = t :=
        List.eraseP_cons_of_pos (beq_iff_eq.mpr hc)
      rw [herase, ← hc]
      exact hnd.1
    · have herase : List.eraseP (fun c => c.id == i) (c :: t)
          = c :: List.eraseP (fun c => c.id == i) t :=
        List.eraseP_cons_of_neg (by simpa using hc)
      rw [herase, List.map_cons]
      intro hin
      rcases List.mem_cons.mp hin with h | h
      · exact hc h.symm
      · have hmem' : i ∈ t.map fun c => c.id := by
          rcases List.mem_cons.mp hmem with h' | h'
          · exact absurd h'.symm hc
          · exact h'
        exact ih hnd.2 hmem' h

lemma updateRedundancies_keys {E : Type} (sim : E → E → ℚ) (e : E)
    (l : List (MMR.MMRCandidate E)) :
    ((MMR.updateRedundancies sim e l).map fun c => c.id) = l.map fun c => c.id := by
  rw [MMR.updateRedundancies, List.map_map]
  rfl

lemma mmrLoop_length {E : Type} (nb : ℕ → List ℕ) (emb : ℕ → Option E)
    (docs : ℕ → Option (String × String)) (sim : E → E → ℚ) (q : E)
    (lam : ℚ) (ak md : ℕ) (ms : ℚ) :
    ∀ (fuel : ℕ) (cands : List (MMR.MMRCandidate E)) (visited : List ℕ)
      (selEmb : List E),
    (MMR.mmrLoop nb emb docs sim q lam ak md ms fuel cands visited selEmb).length ≤ fuel := by
  intro fuel
  induction fuel with
  | zero =>
    intro cands visited selEmb
    simp [MMR.mmrLoop]
  | succ n ih =>
    intro cands visited selEmb
    rw [MMR.mmrLoop]
    split
    · simp
    · dsimp only
      split
      · simp
      · simp only [List.length_cons]
        exact Nat.succ_le_succ (ih _ _ _)

lemma mmrLoop_nodup {E : Type} (nb : ℕ → List ℕ) (emb : ℕ → Option E)
    (docs : ℕ → Option (String × String)) (sim : E → E → ℚ) (q : E)
    (lam : ℚ) (ak md : ℕ) (ms : ℚ) :
    ∀ (fuel : ℕ) (cands : List (MMR.MMRCandidate E)) (visited : List ℕ)
      (selEmb : List E),
    ((cands.map fun c => c.id).Nodup) →
    (∀ k ∈ cands.map fun c => c.id, k ∈ visited) →
    (((MMR.mmrLoop nb emb docs sim q lam ak md ms fuel cands visited selEmb).map
        (fun st => st.id)).Nodup
      ∧ ∀ st ∈ MMR.mmrLoop nb emb docs sim q lam ak md ms fuel cands visited selEmb,
          st.id ∈ (cands.map fun c => c.id) ∨ st.id ∉ visited) := by
  intro fuel
  induction fuel with
  | zero =>
    intro cands visited selEmb _ _
    simp [MMR.mmrLoop]
  | succ n ih =>
    intro cands visited selEmb hnd hsub
    rw [MMR.mmrLoop]
    rcases hbest : pythonMaxBy (fun c => c.mmr_score lam) cands with _ | best
    · rw [hbest]
      simp
    · rw [hbest]
      dsimp only
      by_cases hms : best.mmr_score lam < ms
      · rw [if_pos hms]
        simp
      · rw [if_neg hms]
        have hbmem : best ∈ cands := pythonMaxBy_mem hbest
        have hbid_mem : best.id ∈ cands.map fun c => c.id :=
          List.mem_map.mpr ⟨best, hbmem, rfl⟩
        have hbid_vis : best.id ∈ visited := hsub _ hbid_mem
        have hkeys_upd :
            ((MMR.updateRedundancies sim best.embedding
              (cands.eraseP fun c => c.id == best.id)).map fun c => c.id)
            = (cands.eraseP fun c => c.id == best.id).map fun c => c.id :=
          updateRedundancies_keys _ _ _
        have hsurv_sub :
            ((cands.eraseP fun c => c.id == best.id).map fun c => c.id).Sublist
              (cands.map fun c => c.id) :=
          (List.eraseP_sublist cands).map _
        have hnd_upd :
            ((MMR.updateRedundancies sim best.embedding
              (cands.eraseP fun c => c.id == best.id)).map fun c => c.id).Nodup := by
          rw [hkeys_upd]
          exact hsurv_sub.nodup hnd
        have hnot_best :
            best.id ∉ (cands.eraseP fun c => c.id == best.id).map fun c => c.id :=
          eraseP_id_not_mem hnd hbid_mem
        have hinv0 : insertFoldInv
            ((MMR.updateRedundancies sim best.embedding
              (cands.eraseP fun c => c.id == best.id)).map fun c => c.id) visited
            (MMR.updateRedundancies sim best.embedding
              (cands.eraseP fun c => c.id == best.id), visited) := by
          refine ⟨hnd_upd, ?_, fun k hk => Or.inl hk, fun v hv => hv⟩
          intro k hk
          rw [hkeys_upd] at hk
          exact hsub k (hsurv_sub.subset hk)
        have hinv' : insertFoldInv
            ((MMR.updateRedundancies sim best.embedding
              (cands.eraseP fun c => c.id == best.id)).map fun c => c.id) visited
            (if best.depth < md then
              MMR.expandFrontier nb emb docs sim q ak (selEmb ++ [best.embedding])
                best.id best.depth
                (MMR.updateRedundancies sim best.embedding
                  (cands.eraseP fun c => c.id == best.id)) visited
            else
              (MMR.updateRedundancies sim best.embedding
                (cands.eraseP fun c => c.id == best.id), visited)) := by
          split
          · exact expandFrontier_inv _ _ _ _ _ _ _ _ _ _ _ hinv0
          · exact hinv0
        obtain ⟨h1', h2', h3', h4'⟩ := hinv'
        have hrec := ih _ _ (selEmb ++ [best.embedding]) h1' h2'
        constructor
        · rw [List.map_cons, List.nodup_cons]
          refine ⟨?_, hrec.1⟩
          intro hmem
          rw [List.mem_map] at hmem
          obtain ⟨st, hst, hid⟩ := hmem
          rcases hrec.2 st hst with hin | hnin
          · rcases h3' st.id hin with hu | hnv
            · rw [hkeys_upd, hid] at hu
              exact hnot_best hu
            · rw [hid] at hnv
              exact hnv hbid_vis
          · rw [hid] at hnin
            exact hnin (h4' best.id hbid_vis)
        · intro st hst
          rcases List.mem_cons.mp hst with rfl | hst'
          · exact Or.inl hbid_mem
          · rcases hrec.2 st hst' with hin | hnin
            · rcases h3' st.id hin with hu | hnv
              · left
                rw [hkeys_upd] at hu
                exact hsurv_sub.subset hu
              · exact Or.inr hnv
            · right
              intro hv
              exact hnin (h4' st.id hv)

/-- C1: both walks are bounded and never revisit: `recursive_graph_walk`
returns at most `max_hops` steps, `mmr_graph_walk` at most `select_k`
steps, and in each returned path no document id occurs twice (a node in the
visited/selected set is never selected again). -/
theorem claim_C1_walks_bounded_and_nodup :
    ∀ (E : Type) (neighbors : ℕ → List ℕ) (search : String → List SearchResult)
      (docs : ℕ → Option (String × String)) (emb : ℕ → Option E) (sim : E → E → ℚ)
      (seeds : List SearchResult) (prompt : String) (max_hops : ℕ) (threshold : ℚ)
      (query_weights : Option (List ℚ)) (q : E) (lambda_mult : ℚ)
      (select_k adjacent_k max_depth : ℕ) (min_mmr_score : ℚ),
    ((GraphWalk.recursive_graph_walk neighbors search docs seeds prompt max_hops
        threshold query_weights).length ≤ max_hops
      ∧ ((GraphWalk.recursive_graph_walk neighbors search docs seeds prompt max_hops
          threshold query_weights).map (fun st => st.id)).Nodup)
    ∧ ((MMR.mmr_graph_walk neighbors emb docs sim seeds q lambda_mult select_k
        adjacent_k max_depth min_mmr_score).length ≤ select_k
      ∧ ((MMR.mmr_graph_walk neighbors emb docs sim seeds q lambda_mult select_k
          adjacent_k max_depth min_mmr_score).map (fun st => st.id)).Nodup) := by
  intro E neighbors search docs emb sim seeds prompt max_hops threshold
    query_weights q lambda_mult select_k adjacent_k max_depth min_mmr_score
  constructor
  · rcases seeds with _ | ⟨seed, rest⟩
    · rw [GraphWalk.recursive_graph_walk]
      simp
    · rw [GraphWalk.recursive_graph_walk]
      exact ⟨walkLoop_length _ _ _ _ _ _ _ _ _ _, walkLoop_nodup _ _ _ _ _ _ _ _ _ _⟩
  · rw [MMR.mmr_graph_walk]
    by_cases hs : seeds.isEmpty
    · rw [if_pos hs]
      simp
    · rw [if_neg hs]
      have hinit := initSeeds_inv emb sim q seeds
      exact ⟨mmrLoop_length _ _ _ _ _ _ _ _ _ _ _ _ _,
        (mmrLoop_nodup _ _ _ _ _ _ _ _ _ _ _ _ _ hinit.1 hinit.2).1⟩

lemma toLower_isUpper_eq_false (c : Char) : (Char.toLower c).isUpper = false := by
  simp only [Char.toLower]
  split
  · next h =>
    obtain ⟨h1, h2⟩ := h
    have hv : (Char.toNat c + 32).isValidChar := Or.inl (by omega)
    rw [Char.ofNat, dif_pos hv]
    have hval : (Char.ofNatAux (c.toNat + 32) hv).val.toNat = c.toNat + 32 := rfl
    simp only [Char.isUpper, Bool.and_eq_false_iff, decide_eq_false_iff_not, ge_iff_le]
    right
    intro hle
    have hle' : (Char.ofNatAux (c.toNat + 32) hv).val.toNat ≤ (90 : UInt32).toNat := hle
    have h90 : (90 : UInt32).toNat = 90 := rfl
    omega
  · next h =>
    simp only [Char.isUpper, Bool.and_eq_false_iff, decide_eq_false_iff_not, ge_iff_le]
    simp only [Char.toNat] at h
    rw [Decidable.not_and_iff_or_not] at h
    rcases h with h | h
    · left
      intro hle
      have hle' : (65 : UInt32).toNat ≤ c.val.toNat := hle
      have h65 : (65 : UInt32).toNat = 65 := rfl
      push_neg at h
      omega
    · right
      intro hle
      have hle' : c.val.toNat ≤ (90 : UInt32).toNat := hle
      have h90 : (90 : UInt32).toNat = 90 := rfl
      push_neg at h
      omega

lemma wordRunsAux_chars :
    ∀ (s acc : List Char) (r : List Char), r ∈ wordRunsAux acc s →
    ∀ c ∈ r, c ∈ acc ∨ c ∈ s := by
  intro s
  induction s with
  | nil =>
    intro acc r hr c hc
    rw [wordRunsAux] at hr
    split at hr
    · simp at hr
    · rw [List.mem_singleton] at hr
      subst hr
      exact Or.inl (List.mem_reverse.mp hc)
  | cons x xs ih =>
    intro acc r hr c hc
    rw [wordRunsAux] at hr
    split at hr
    · rcases ih (x :: acc) r hr c hc with h | h
      · rcases List.mem_cons.mp h with rfl | h
        · exact Or.inr (List.mem_cons_self c xs)
        · exact Or.inl h
      · exact Or.inr (List.mem_cons_of_mem x h)
    · split at hr
      · rcases ih [] r hr c hc with h | h
        · simp at h
        · exact Or.inr (List.mem_cons_of_mem x h)
      · rcases List.mem_cons.mp hr with rfl | hr'
        · exact Or.inl (List.mem_reverse.mp hc)
        · rcases ih [] r hr' c hc with h | h
          · simp at h
          · exact Or.inr (List.mem_cons_of_mem x h)

lemma mem_alphaTokens {s : List Char} {w : String} (hw : w ∈ alphaTokens s) :
    w.data.all Char.isAlpha = true ∧ 3 ≤ w.data.length
    ∧ ∀ c ∈ w.data, c ∈ s := by
  rw [alphaTokens, List.mem_map] at hw
  obtain ⟨r, hr, rfl⟩ := hw
  rw [List.mem_filter] at hr
  have hprops := hr.2
  rw [Bool.and_eq_true, decide_eq_true_eq] at hprops
  refine ⟨hprops.1, hprops.2, ?_⟩
  intro c hc
  rcases wordRunsAux_chars s [] r hr.1 c hc with h | h
  · simp at h
  · exact h

lemma filterMeaningful_inv (mt : ℕ) :
    ∀ (ws seen acc : List String),
    acc.Nodup → (∀ w ∈ acc, w ∈ seen) →
    (∀ w ∈ acc, w ∉ GraphWalk.stop_words ∧ 3 ≤ w.length) →
    acc.length < mt →
    (GraphWalk.filterMeaningful mt ws seen acc).Nodup
    ∧ (∀ w ∈ GraphWalk.filterMeaningful mt ws seen acc,
        w ∉ GraphWalk.stop_words ∧ 3 ≤ w.length)
    ∧ (GraphWalk.filterMeaningful mt ws seen acc).length ≤ mt := by
  intro ws
  induction ws with
  | nil =>
    intro seen acc hnd hseen hprops hlen
    rw [GraphWalk.filterMeaningful]
    exact ⟨hnd, hprops, le_of_lt hlen⟩
  | cons w ws ih =>
    intro seen acc hnd hseen hprops hlen
    rw [GraphWalk.filterMeaningful]
    split
    · next hcond =>
      have hnd' : (acc ++ [w]).Nodup := by
        rw [List.nodup_append]
        refine ⟨hnd, List.nodup_singleton _, ?_⟩
        intro y hy hy'
        rw [List.mem_singleton] at hy'
        subst hy'
        exact hcond.2.1 (hseen y hy)
      have hprops' : ∀ x ∈ acc ++ [w], x ∉ GraphWalk.stop_words ∧ 3 ≤ x.length := by
        intro x hx
        rcases List.mem_append.mp hx with hx | hx
        · exact hprops x hx
        · rw [List.mem_singleton] at hx
          subst hx
          exact ⟨hcond.1, hcond.2.2⟩
      dsimp only
      split
      · next hstop =>
        refine ⟨hnd', hprops', ?_⟩
        rw [List.length_append, List.length_singleton]
        omega
      · next hstop =>
        refine ih (seen ++ [w]) (acc ++ [w]) hnd' ?_ hprops' ?_
        · intro y hy
          rcases List.mem_append.mp hy with hy | hy
          · exact List.mem_append.mpr (Or.inl (hseen y hy))
          · exact List.mem_append.mpr (Or.inr hy)
        · rw [List.length_append, List.length_singleton] at hstop ⊢
          omega
    · exact ih seen acc hnd hseen hprops hlen

/-- C3 (amended): the sanitizer that the fusion engine itself applies
before the lexical method (`search.py:sanitize_fts5_query`) lowercases the
input, extracts alphabetic tokens of length ≥ 3, quotes them, and
substitutes the fixed placeholder `"document"` when no token survives — but
it performs NO stop-word removal, NO de-duplication and NO count cap (see
the counterexample). Those steps are performed only by the separate
graph-walk sanitizer (`graph_walk.py:sanitize_fts5_query`, applied to walk
queries before they reach the fusion engine), which drops the fixed
stop-word set, de-duplicates preserving first-seen order, caps at
`max_terms ≥ 1`, and falls back to the placeholder `document`. -/
theorem claim_C3_sanitization_split :
    ∀ (text : String) (mt : ℕ), 1 ≤ mt →
    (∀ w ∈ Search.sanitizeTokens text,
      w.data.all Char.isAlpha = true ∧ 3 ≤ w.data.length
      ∧ ∀ c ∈ w.data, c.isUpper = false)
    ∧ (Search.sanitizeTokens text = [] →
        Search.sanitize_fts5_query text = "\"document\"")
    ∧ ((GraphWalk.filterMeaningful mt
          (alphaTokens (text.data.map Char.toLower)) [] []).Nodup
      ∧ (∀ w ∈ GraphWalk.filterMeaningful mt
            (alphaTokens (text.data.map Char.toLower)) [] [],
          w ∉ GraphWalk.stop_words ∧ 3 ≤ w.length)
      ∧ (GraphWalk.filterMeaningful mt
          (alphaTokens (text.data.map Char.toLower)) [] []).length ≤ mt
      ∧ (GraphWalk.filterMeaningful mt
            (alphaTokens (text.data.map Char.toLower)) [] [] = [] →
          GraphWalk.sanitize_fts5_query text mt = "document")) := by
  intro text mt hmt
  refine ⟨?_, ?_, ?_⟩
  · intro w hw
    obtain ⟨halpha, hlen, hchars⟩ := mem_alphaTokens hw
    refine ⟨halpha, hlen, ?_⟩
    intro c hc
    have hcmem := hchars c hc
    rw [List.mem_map] at hcmem
    obtain ⟨d, _, rfl⟩ := hcmem
    exact toLower_isUpper_eq_false d
  · intro h
    rw [Search.sanitize_fts5_query, h]
    simp
  · refine ⟨?_, ?_, ?_, ?_⟩
    · exact (filterMeaningful_inv mt _ [] [] List.nodup_nil (by simp) (by simp)
        (by simp only [List.length_nil]; omega)).1
    · exact (filterMeaningful_inv mt _ [] [] List.nodup_nil (by simp) (by simp)
        (by simp only [List.length_nil]; omega)).2.1
    · exact (filterMeaningful_inv mt _ [] [] List.nodup_nil (by simp) (by simp)
        (by simp only [List.length_nil]; omega)).2.2
    · intro h
      rw [GraphWalk.sanitize_fts5_query, h]
      simp

/-- Witness for C3 (amended) at concrete input `"The THE the cats"` with
`max_terms = 10`. -/
theorem claim_C3_witness :
    (1 ≤ 10)
    ∧ ((∀ w ∈ Search.sanitizeTokens "The THE the cats",
        w.data.all Char.isAlpha = true ∧ 3 ≤ w.data.length
        ∧ ∀ c ∈ w.data, c.isUpper = false)
      ∧ (Search.sanitizeTokens "The THE the cats" = [] →
          Search.sanitize_fts5_query "The THE the cats" = "\"document\"")
      ∧ ((GraphWalk.filterMeaningful 10
            (alphaTokens (("The THE the cats" : String).data.map Char.toLower)) [] []).Nodup
        ∧ (∀ w ∈ GraphWalk.filterMeaningful 10
              (alphaTokens (("The THE the cats" : String).data.map Char.toLower)) [] [],
            w ∉ GraphWalk.stop_words ∧ 3 ≤ w.length)
        ∧ (GraphWalk.filterMeaningful 10
            (alphaTokens (("The THE the cats" : String).data.map Char.toLower)) [] []).length ≤ 10
        ∧ (GraphWalk.filterMeaningful 10
              (alphaTokens (("The THE the cats" : String).data.map Char.toLower)) [] [] = [] →
            GraphWalk.sanitize_fts5_query "The THE the cats" 10 = "document"))) :=
  ⟨by omega, claim_C3_sanitization_split "The THE the cats" 10 (by omega)⟩

/-- C3 counterexample: the fusion engine's own sanitizer keeps the
stop word `"the"` and its duplicate — `sanitize_fts5_query "the the"`
returns two copies of a stop word rather than dropping or de-duplicating
them — so the stop-word/de-duplication/cap steps claimed for the fusion
engine's sanitization do not hold of it. -/
theorem claim_C3_counterexample :
    Search.sanitize_fts5_query "the the" = "\"the\" \"the\""
    ∧ "the" ∈ GraphWalk.stop_words
    ∧ Search.sanitize_fts5_query "the the" ≠ "\"document\""
    ∧ GraphWalk.sanitize_fts5_query "the the" 10 = "document" := by
  refine ⟨by decide, by decide, by decide, by decide⟩

end Hyphora
